import Mathlib

/-!
Shallow embedding of the PCVisor packet-classification evaluation core.

The ingestion adapters (`load_cb_rules`, `load_prfx_rules`, `load_trace`),
the timing helper `make_timediff` and the throughput expression of `main`
are translated from `code/mem_sim.c`.  A successfully scanned input line is
modelled as a record of the integer fields that `fscanf` produced; the file
is a list of such records together with a flag telling whether the final
successful scan also consumed end-of-file (set the end-of-file indicator).
Machine integers are modelled as `Nat` with explicit truncation (`% 2 ^ 32`,
`&&& 0xffff`, ...) exactly at the points where the C code truncates.

The two classification engines (HyperSplit and Tuple Space Search) are not
part of the sources at hand (only their declarations and the dispatch table
are), so they are modelled from the specification; each such definition
carries a doc comment starting with `Modelled from the spec:`.
-/

namespace PCVisor

/-- Dimension widths of the five-tuple, indexed SIP, DIP, SPORT, DPORT,
PROTO (the constant table `W[d]` of the specification). -/
def dimWidth : Fin 5 → Nat := ![32, 32, 16, 16, 8]

/-- Capacity cap of the rule buffers (`RULE_MAX`, default 1 048 576). -/
def RULE_MAX : Nat := 1048576

/-- Capacity cap of the trace buffer (`PKT_MAX`, default 1 048 576). -/
def PKT_MAX : Nat := 1048576

/-- Small-leaf threshold of the HyperSplit build (`BINTH`, default 8). -/
def BINTH : Nat := 8

/-- The fatal load-time errors of `mem_sim.c`: `Illegal rule/packet
format`, `Too many rules/packets`, and `Protocol mask error`. -/
inductive LoadErr where
  | badFormat
  | tooMany
  | badProtoMask
deriving DecidableEq, Repr

instance {ε α : Type} [DecidableEq ε] [DecidableEq α] : DecidableEq (Except ε α) := fun a b =>
  match a, b with
  | .ok x, .ok y =>
    if h : x = y then isTrue (by rw [h]) else isFalse (by intro hc; cases hc; exact h rfl)
  | .error e, .error f =>
    if h : e = f then isTrue (by rw [h]) else isFalse (by intro hc; cases hc; exact h rfl)
  | .ok _, .error _ => isFalse (by intro hc; cases hc)
  | .error _, .ok _ => isFalse (by intro hc; cases hc)

/-- A range rule: an inclusive low/high bound per dimension plus the
priority (`struct rule` with `dim[d][0]`, `dim[d][1]`, `pri`). -/
structure RRule where
  low : Fin 5 → Nat
  high : Fin 5 → Nat
  pri : Nat
deriving DecidableEq

/-- A prfx rule: per dimension a (masked) value and a mask length in bits,
plus the priority (`struct p_rule` with `dim[d]`, `len[d]`, `pri`). -/
structure PRule where
  val : Fin 5 → Nat
  len : Fin 5 → Nat
  pri : Nat
deriving DecidableEq

/-- A packet key: one value per dimension. -/
structure Pkt where
  val : Fin 5 → Nat
deriving DecidableEq

/-- A loaded trace entry: the packet key plus the expected matched
priority (`struct packet` with `val[]` and `match`). -/
structure TracePkt where
  val : Fin 5 → Nat
  expected : Nat
deriving DecidableEq

/-- The seventeen integer fields scanned by `fscanf` from one line of a
classbench rule file, in source order: source IP octets and mask length,
destination IP octets and mask length, both port ranges, protocol value
and protocol mask, and the 1-based rule id. -/
structure CbRec where
  s0 : Nat
  s1 : Nat
  s2 : Nat
  s3 : Nat
  smask : Nat
  d0 : Nat
  d1 : Nat
  d2 : Nat
  d3 : Nat
  dmask : Nat
  spb : Nat
  spe : Nat
  dpb : Nat
  dpe : Nat
  proto : Nat
  pmask : Nat
  rid : Nat
deriving DecidableEq

/-- The seventeen integer fields scanned from one line of a prfx-format
rule file: IP octets and mask lengths, port values and port mask lengths,
protocol value and mask, and the 1-based rule id. -/
structure PrfxRec where
  s0 : Nat
  s1 : Nat
  s2 : Nat
  s3 : Nat
  smask : Nat
  d0 : Nat
  d1 : Nat
  d2 : Nat
  d3 : Nat
  dmask : Nat
  sport : Nat
  spmask : Nat
  dport : Nat
  dpmask : Nat
  proto : Nat
  pmask : Nat
  rid : Nat
deriving DecidableEq

/-- The six integer fields scanned from one line of a trace file: the five
packet fields and the 1-based expected rule id. -/
structure TraceRec where
  sip : Nat
  dip : Nat
  sport : Nat
  dport : Nat
  proto : Nat
  matchId : Nat
deriving DecidableEq

/-- Assemble an IPv4 address from four octet fields, as the loaders do:
`((a & 0xff) << 24) | ((b & 0xff) << 16) | ((c & 0xff) << 8) | (d & 0xff)`. -/
def ip4 (a b c d : Nat) : Nat :=
  ((a &&& 0xff) <<< 24) ||| ((b &&& 0xff) <<< 16) ||| ((c &&& 0xff) <<< 8) ||| (d &&& 0xff)

/-- Clamp an IP mask length to 32: `m > 32 ? 32 : m`. -/
def clip32 (m : Nat) : Nat := if 32 < m then 32 else m

/-- The 32-bit network mask the loaders compute for a (clamped) mask
length `m`: `(uint32_t)(~((1ULL << (32 - m)) - 1))`, i.e. the 64-bit
complement truncated to 32 bits. -/
def maskU32 (m : Nat) : Nat := ((2 ^ 64 - 1) - ((1 <<< (32 - m)) - 1)) % 2 ^ 32

/-- Complement of a 32-bit value (C `~` on a `uint32_t`). -/
def u32compl (x : Nat) : Nat := 2 ^ 32 - 1 - x

/-- The per-line body of `load_cb_rules`: build the five-dimension range
rule from one scanned record, or fail on an unsupported protocol mask. -/
def processCbRecord (rec : CbRec) : Except LoadErr RRule :=
  let sip := ip4 rec.s0 rec.s1 rec.s2 rec.s3
  let sm := maskU32 (clip32 rec.smask)
  let dip := ip4 rec.d0 rec.d1 rec.d2 rec.d3
  let dm := maskU32 (clip32 rec.dmask)
  let spA := rec.spb &&& 0xffff
  let spB := rec.spe &&& 0xffff
  let spLow := if spB < spA then spB else spA
  let spHigh := if spB < spA then spA else spB
  let dpA := rec.dpb &&& 0xffff
  let dpB := rec.dpe &&& 0xffff
  let dpLow := if dpB < dpA then dpB else dpA
  let dpHigh := if dpB < dpA then dpA else dpB
  if rec.pmask = 0xff then
    .ok { low := ![sip &&& sm, dip &&& dm, spLow, dpLow, rec.proto &&& 0xff],
          high := ![sip ||| u32compl sm, dip ||| u32compl dm, spHigh, dpHigh, rec.proto &&& 0xff],
          pri := (rec.rid + (2 ^ 32 - 1)) % 2 ^ 32 }
  else if rec.pmask = 0 then
    .ok { low := ![sip &&& sm, dip &&& dm, spLow, dpLow, 0],
          high := ![sip ||| u32compl sm, dip ||| u32compl dm, spHigh, dpHigh, 0xff],
          pri := (rec.rid + (2 ^ 32 - 1)) % 2 ^ 32 }
  else
    .error .badProtoMask

/-- The loading loop of `load_cb_rules`: `while (!feof) { check capacity;
fscanf; store rule; }`.  `eofSet` tells whether the last successful scan
consumed end-of-file; when it did not, the loop runs once more, checks the
capacity first and then fails the extra `fscanf` with the format error. -/
def goCb (eofSet : Bool) : List CbRec → Nat → Except LoadErr (List RRule)
  | [], i =>
    if eofSet then .ok []
    else if RULE_MAX ≤ i then .error .tooMany
    else .error .badFormat
  | rec :: rest, i =>
    if RULE_MAX ≤ i then .error .tooMany
    else
      match processCbRecord rec with
      | .error e => .error e
      | .ok ru =>
        match goCb eofSet rest (i + 1) with
        | .error e => .error e
        | .ok rus => .ok (ru :: rus)

/-- `load_cb_rules`: load a classbench-format rule file, given as the list
of successfully scanned line records plus the end-of-file flag. -/
def load_cb_rules (recs : List CbRec) (eofSet : Bool) : Except LoadErr (List RRule) :=
  goCb eofSet recs 0

/-- The per-line body of `load_prfx_rules`: build the five-dimension
prfx rule from one scanned record, or fail on an unsupported protocol
mask. -/
def processPrfxRecord (rec : PrfxRec) : Except LoadErr PRule :=
  let sip := ip4 rec.s0 rec.s1 rec.s2 rec.s3
  let sm := clip32 rec.smask
  let dip := ip4 rec.d0 rec.d1 rec.d2 rec.d3
  let dm := clip32 rec.dmask
  if rec.pmask = 0xff then
    .ok { val := ![sip &&& maskU32 sm, dip &&& maskU32 dm,
                   rec.sport &&& 0xffff, rec.dport &&& 0xffff, rec.proto &&& 0xff],
          len := ![sm, dm, rec.spmask, rec.dpmask, 8],
          pri := (rec.rid + (2 ^ 32 - 1)) % 2 ^ 32 }
  else if rec.pmask = 0 then
    .ok { val := ![sip &&& maskU32 sm, dip &&& maskU32 dm,
                   rec.sport &&& 0xffff, rec.dport &&& 0xffff, 0],
          len := ![sm, dm, rec.spmask, rec.dpmask, 0],
          pri := (rec.rid + (2 ^ 32 - 1)) % 2 ^ 32 }
  else
    .error .badProtoMask

/-- The loading loop of `load_prfx_rules`, same shape as `goCb`. -/
def goPrfx (eofSet : Bool) : List PrfxRec → Nat → Except LoadErr (List PRule)
  | [], i =>
    if eofSet then .ok []
    else if RULE_MAX ≤ i then .error .tooMany
    else .error .badFormat
  | rec :: rest, i =>
    if RULE_MAX ≤ i then .error .tooMany
    else
      match processPrfxRecord rec with
      | .error e => .error e
      | .ok ru =>
        match goPrfx eofSet rest (i + 1) with
        | .error e => .error e
        | .ok rus => .ok (ru :: rus)

/-- `load_prfx_rules`: load a prfx-format rule file. -/
def load_prfx_rules (recs : List PrfxRec) (eofSet : Bool) : Except LoadErr (List PRule) :=
  goPrfx eofSet recs 0

/-- The per-line body of `load_trace`: the five fields are stored in
32-bit slots, then the ports are truncated to 16 bits, the protocol to 8
bits, and the expected 1-based rule id is decremented. -/
def processTraceRec (rec : TraceRec) : TracePkt :=
  { val := ![rec.sip % 2 ^ 32, rec.dip % 2 ^ 32,
             rec.sport &&& 0xffff, rec.dport &&& 0xffff, rec.proto &&& 0xff],
    expected := (rec.matchId % 2 ^ 32 + (2 ^ 32 - 1)) % 2 ^ 32 }

/-- The loading loop of `load_trace`, same shape as `goCb` but with the
`PKT_MAX` cap and no per-record failure. -/
def goTrace (eofSet : Bool) : List TraceRec → Nat → Except LoadErr (List TracePkt)
  | [], i =>
    if eofSet then .ok []
    else if PKT_MAX ≤ i then .error .tooMany
    else .error .badFormat
  | rec :: rest, i =>
    if PKT_MAX ≤ i then .error .tooMany
    else
      match goTrace eofSet rest (i + 1) with
      | .error e => .error e
      | .ok ps => .ok (processTraceRec rec :: ps)

/-- `load_trace`: load a trace file. -/
def load_trace (recs : List TraceRec) (eofSet : Bool) : Except LoadErr (List TracePkt) :=
  goTrace eofSet recs 0

/-- A timestamp as returned by `gettimeofday` (seconds, microseconds). -/
structure Timeval where
  sec : Nat
  usec : Nat
deriving DecidableEq

/-- `make_timediff`: `(1000000ULL * stop.tv_sec + stop.tv_usec) -
(1000000ULL * start.tv_sec + start.tv_usec)` in 64-bit unsigned
arithmetic. -/
def make_timediff (start stop : Timeval) : Nat :=
  ((1000000 * stop.sec + stop.usec) % 2 ^ 64 + 2 ^ 64
    - (1000000 * start.sec + start.usec) % 2 ^ 64) % 2 ^ 64

/-- The throughput expression of `main`: `(t.num * 1000000ULL) /
timediff` in 64-bit unsigned arithmetic. -/
def searching_pps (num timediff : Nat) : Nat :=
  (num * 1000000) % 2 ^ 64 / timediff

/-! ## HyperSplit engine, modelled from the spec -/

/-- Modelled from the spec: a packet matches a range rule when its value
lies within the rule's inclusive low/high bounds in every dimension. -/
def rmatch (r : RRule) (p : Pkt) : Bool :=
  decide (∀ d, r.low d ≤ p.val d ∧ p.val d ≤ r.high d)

/-- Insert an element into a key-sorted list, behind existing entries of
the same key (shared by the HyperSplit leaf sort and the TSS chains). -/
def insSorted {α : Type} (key : α → Nat) (a : α) : List α → List α
  | [] => [a]
  | x :: xs => if key a < key x then a :: x :: xs else x :: insSorted key a xs

/-- Sort a list by ascending key, by repeated sorted insertion. -/
def sortByKey {α : Type} (key : α → Nat) (l : List α) : List α :=
  l.foldr (insSorted key) []

/-- Modelled from the spec: a HyperSplit cell, the per-dimension
half-range box a tree node is responsible for. -/
structure Cell where
  low : Fin 5 → Nat
  high : Fin 5 → Nat

/-- Modelled from the spec: the root cell is the full key space. -/
def rootCell : Cell :=
  { low := fun _ => 0, high := fun d => 2 ^ dimWidth d - 1 }

/-- Modelled from the spec: a HyperSplit decision-tree node holds a split
dimension and threshold; a leaf holds its rule subset (missing `hs.c`;
`struct hs_node` of `hs.h` carries `d2s`, `thresh` and two children). -/
inductive HsTree where
  | leaf (rules : List RRule)
  | node (d : Fin 5) (t : Nat) (left : HsTree) (right : HsTree)

/-- Modelled from the spec: candidate split thresholds for dimension `d`
are the distinct endpoints of the rules projected onto `d`, clipped to
the cell, listed in ascending order. -/
def endpoints (S : List RRule) (C : Cell) (d : Fin 5) : List Nat :=
  sortByKey (fun t => t)
    ((((S.map fun r => r.low d) ++ (S.map fun r => r.high d)).map
      fun t => min (max t (C.low d)) (C.high d)).dedup)

/-- Modelled from the spec: all candidate splits `(d, t)`, dimensions in
ascending order and thresholds ascending within a dimension (the
tie-break order). -/
def splitCands (S : List RRule) (C : Cell) : List (Fin 5 × Nat) :=
  (List.finRange 5).flatMap fun d => (endpoints S C d).map fun t => (d, t)

/-- Modelled from the spec: the cost of a candidate split is the sum of
the two children's rule counts
`|{r : r.low[d] ≤ t}| + |{r : r.high[d] > t}|`. -/
def splitCost (S : List RRule) (c : Fin 5 × Nat) : Nat :=
  (S.countP fun r => decide (r.low c.1 ≤ c.2)) +
    (S.countP fun r => decide (c.2 < r.high c.1))

/-- Modelled from the spec: choose the candidate split of least cost,
ties broken by the enumeration order (lower dimension, then lower
threshold). -/
def chooseSplit (S : List RRule) (C : Cell) : Option (Fin 5 × Nat) :=
  (splitCands S C).foldl
    (fun best c =>
      match best with
      | none => some c
      | some b => if splitCost S c < splitCost S b then some c else some b)
    none

/-- Modelled from the spec: recursive HyperSplit build.  A node becomes a
leaf (holding its rules sorted by ascending priority) when the subset is
small (`≤ BINTH`), when the depth budget `fuel` is exhausted, or when the
best split makes no progress; otherwise the rules are partitioned into
`low[d] ≤ t` (left) and `high[d] > t` (right), rules straddling `t`
going to both sides. -/
def hsBuild : Nat → List RRule → Cell → HsTree
  | 0, S, _ => .leaf (sortByKey RRule.pri S)
  | fuel + 1, S, C =>
    if S.length ≤ BINTH then .leaf (sortByKey RRule.pri S)
    else
      match chooseSplit S C with
      | none => .leaf (sortByKey RRule.pri S)
      | some (d, t) =>
        if (S.filter fun r => decide (r.low d ≤ t)).length = S.length
            ∧ (S.filter fun r => decide (t < r.high d)).length = S.length then
          .leaf (sortByKey RRule.pri S)
        else
          .node d t
            (hsBuild fuel (S.filter fun r => decide (r.low d ≤ t))
              { C with high := Function.update C.high d t })
            (hsBuild fuel (S.filter fun r => decide (t < r.high d))
              { C with low := Function.update C.low d (t + 1) })

/-- Modelled from the spec: HyperSplit search descends left when
`p[d] ≤ t`, right otherwise, and at a leaf returns the first rule of the
priority-sorted list that matches the packet. -/
def hsSearch : HsTree → Pkt → Option RRule
  | .leaf rs, p => rs.find? fun r => rmatch r p
  | .node d t l r, p => if p.val d ≤ t then hsSearch l p else hsSearch r p

/-! ## TSS engine, modelled from the spec -/

/-- Modelled from the spec: the `mask(len)` of a dimension, i.e. the
top `len` bits of the dimension's width set. -/
def maskOf (d : Fin 5) (l : Nat) : Nat := 2 ^ dimWidth d - 2 ^ (dimWidth d - l)

/-- Modelled from the spec: masked-equality of a packet against a chain
entry under a tuple's length vector, checked for every dimension. -/
def bucketMatch (lens : Fin 5 → Nat) (r : PRule) (p : Pkt) : Bool :=
  decide (∀ d, p.val d &&& maskOf d (lens d) = r.val d &&& maskOf d (lens d))

/-- Modelled from the spec: a prfx rule matches a packet when the
packet's key agrees with the rule's value on the rule's masked bits in
every dimension. -/
def pmatch (r : PRule) (p : Pkt) : Bool := bucketMatch r.len r p

/-- Modelled from the spec: a TSS tuple bucket is the shared length
vector together with its (priority-sorted) chain of rules. -/
structure Bucket where
  lens : Fin 5 → Nat
  chain : List PRule
deriving DecidableEq

/-- Modelled from the spec: insert one rule into the index; locate or
create the bucket with the rule's length vector, then insert into the
chain preserving the ascending-priority order. -/
def tssInsertRule (r : PRule) : List Bucket → List Bucket
  | [] => [{ lens := r.len, chain := [r] }]
  | b :: bs =>
    if b.lens = r.len then { lens := b.lens, chain := insSorted PRule.pri r b.chain } :: bs
    else b :: tssInsertRule r bs

/-- Modelled from the spec: TSS build groups the rules by their length
vector, inserting them one by one into an empty index. -/
def tssBuild (rs : List PRule) : List Bucket :=
  rs.foldl (fun idx r => tssInsertRule r idx) []

/-- Modelled from the spec: `insert_update` adds the delta rules into the
existing structure incrementally, with the same locate-or-create bucket
insertion; no deletions. -/
def tssInsrtUpdate (delta : List PRule) (idx : List Bucket) : List Bucket :=
  delta.foldl (fun idx r => tssInsertRule r idx) idx

/-- Keep the better (numerically smaller priority) of the running best
and a bucket's candidate; the running best wins ties. -/
def better {α : Type} (key : α → Nat) (best cand : Option α) : Option α :=
  match cand with
  | none => best
  | some r =>
    match best with
    | none => some r
    | some c => if key r < key c then some r else some c

/-- Modelled from the spec: probe every bucket, take the first chain
entry that is masked-equal to the packet (the chain is sorted, so the
scan may stop at the first hit), and keep the best priority overall. -/
def tssSearchGo (p : Pkt) : List Bucket → Option PRule → Option PRule
  | [], best => best
  | b :: bs, best =>
    tssSearchGo p bs (better PRule.pri best (b.chain.find? fun r => bucketMatch b.lens r p))

/-- Modelled from the spec: TSS search over all buckets, returning the
matching rule of smallest priority or none. -/
def tssSearch (idx : List Bucket) (p : Pkt) : Option PRule :=
  tssSearchGo p idx none

/-- All rules stored in a TSS index, bucket by bucket. -/
def rulesOf (idx : List Bucket) : List PRule :=
  idx.foldr (fun b acc => b.chain ++ acc) []

/-- Well-formedness of a TSS index: every chain is sorted by ascending
priority and only holds rules whose length vector is the bucket's. -/
def IdxWF (idx : List Bucket) : Prop :=
  ∀ b ∈ idx, b.chain.Pairwise (fun a c => a.pri ≤ c.pri) ∧ ∀ r ∈ b.chain, r.len = b.lens

/-- What a priority-ordered search must return on a rule list `rs`:
`none` exactly when nothing matches, otherwise a matching member of
`rs` of minimal key. -/
def matchSpec {α : Type} (key : α → Nat) (m : α → Bool) (rs : List α) (res : Option α) : Prop :=
  (res = none ↔ ∀ r ∈ rs, m r = false)
  ∧ ∀ r, res = some r → m r = true ∧ r ∈ rs ∧ ∀ q ∈ rs, m q = true → key r ≤ key q

/-- The range-IP low/high bounds in the words of the specification and of
the claim: `low = ip & ~((1 << (32 - m)) - 1)` with a 32-bit complement
and `m` clamped to 32.  Kept separate from `processCbRecord` so the code
can be compared against it. -/
def cbClaimLow (m ip : Nat) : Nat := ip &&& (2 ^ 32 - 1 - (2 ^ (32 - min m 32) - 1))

/-- The claimed range-IP upper bound: `high = ip | ((1 << (32 - m)) - 1)`
with `m` clamped to 32. -/
def cbClaimHigh (m ip : Nat) : Nat := ip ||| (2 ^ (32 - min m 32) - 1)

/-! Concrete sample records and rules used by the witnesses. -/

/-- Sample classbench record: `@10.0.0.1/32 0.0.0.0/0 0 : 0 0 : 0 06/FF 1`. -/
def recW2 : CbRec := ⟨10, 0, 0, 1, 32, 0, 0, 0, 0, 0, 0, 0, 0, 0, 6, 0xff, 1⟩

/-- The range rule `load_cb_rules` builds from `recW2`. -/
def ruleW2 : RRule :=
  { low := ![167772161, 0, 0, 0, 6], high := ![167772161, 4294967295, 0, 0, 6], pri := 0 }

/-- Sample classbench record with an unsupported protocol mask `0x05`. -/
def recBad : CbRec := ⟨10, 0, 0, 1, 32, 0, 0, 0, 0, 0, 0, 0, 0, 0, 6, 5, 1⟩

/-- Sample prfx-format record: `@10.0.0.1/8 0.0.0.0/0 80/16 0/0 06/FF 2`. -/
def prfxRecW : PrfxRec := ⟨10, 0, 0, 1, 8, 0, 0, 0, 0, 0, 80, 16, 0, 0, 6, 0xff, 2⟩

/-- Sample prfx-format record with an unsupported protocol mask `0x07`. -/
def prfxRecBad : PrfxRec := ⟨10, 0, 0, 1, 8, 0, 0, 0, 0, 0, 80, 16, 0, 0, 6, 7, 2⟩

/-- The prfx rule `load_prfx_rules` builds from `prfxRecW`. -/
def prfxRuleW : PRule :=
  { val := ![167772160, 0, 80, 0, 6], len := ![8, 0, 16, 0, 8], pri := 1 }

/-- The trace entry `load_trace` builds from `traceRecW`. -/
def tracePktW : TracePkt := { val := ![167772161, 1, 80, 443, 6], expected := 0 }

/-- Sample trace record: packet five-tuple plus expected rule id 1. -/
def traceRecW : TraceRec := ⟨167772161, 1, 80, 443, 6, 1⟩

/-- Fully wildcarded classbench record (mask lengths 0, protocol mask 0). -/
def cbRecOk : CbRec := ⟨0, 0, 0, 0, 0, 0, 0, 0, 0, 0, 0, 0, 0, 0, 0, 0, 1⟩

/-- The range rule built from `cbRecOk`. -/
def cbRuleOk : RRule :=
  { low := ![0, 0, 0, 0, 0], high := ![4294967295, 4294967295, 0, 0, 255], pri := 0 }

/-- Sample full-range rule matching every packet. -/
def wRule : RRule :=
  { low := ![0, 0, 0, 0, 0], high := ![4294967295, 4294967295, 65535, 65535, 255], pri := 0 }

/-- Sample all-wildcard prfx rule. -/
def wPRule : PRule := { val := ![0, 0, 0, 0, 0], len := ![0, 0, 0, 0, 0], pri := 0 }

/-- Sample packet. -/
def wPkt : Pkt := { val := ![1, 2, 3, 4, 5] }

/-- Sample all-wildcard prfx rule of priority 5 (base rule set). -/
def wP0 : PRule := { val := ![0, 0, 0, 0, 0], len := ![0, 0, 0, 0, 0], pri := 5 }

/-- Sample all-wildcard prfx rule of priority 2 (update rule). -/
def wPnew : PRule := { val := ![0, 0, 0, 0, 0], len := ![0, 0, 0, 0, 0], pri := 2 }

/-- Sample all-wildcard prfx rule of priority 9 (low-precedence update). -/
def wPbig : PRule := { val := ![0, 0, 0, 0, 0], len := ![0, 0, 0, 0, 0], pri := 9 }

/-! ## Generic helper lemmas -/

theorem nat_le_or_left (a b : Nat) : a ≤ a ||| b :=
  Nat.le_of_testBit (by intro i h; simp [Nat.testBit_or, h])

theorem nat_le_or_right (a b : Nat) : b ≤ a ||| b :=
  Nat.le_of_testBit (by intro i h; simp [Nat.testBit_or, h])

theorem or_all_ones {x : Nat} (hx : x < 2 ^ 32) : x ||| (2 ^ 32 - 1) = 2 ^ 32 - 1 := by
  have h1 : x ||| (2 ^ 32 - 1) < 2 ^ 32 :=
    Nat.or_lt_two_pow hx (by norm_num)
  have h2 : 2 ^ 32 - 1 ≤ x ||| (2 ^ 32 - 1) := nat_le_or_right x (2 ^ 32 - 1)
  omega

theorem insSorted_perm {α : Type} (key : α → Nat) (a : α) :
    ∀ l : List α, (insSorted key a l).Perm (a :: l) := by
  intro l
  induction l with
  | nil => exact List.Perm.refl _
  | cons x xs ih =>
    unfold insSorted
    by_cases h : key a < key x
    · rw [if_pos h]
    · rw [if_neg h]
      exact (ih.cons x).trans (List.Perm.swap a x xs)

theorem insSorted_pairwise {α : Type} (key : α → Nat) (a : α) :
    ∀ l : List α, l.Pairwise (fun x y => key x ≤ key y) →
      (insSorted key a l).Pairwise (fun x y => key x ≤ key y) := by
  intro l
  induction l with
  | nil => intro _; simp [insSorted]
  | cons x xs ih =>
    intro h
    rcases List.pairwise_cons.mp h with ⟨hx, hxs⟩
    unfold insSorted
    by_cases hlt : key a < key x
    · rw [if_pos hlt]
      refine List.pairwise_cons.mpr ⟨?_, h⟩
      intro b hb
      rcases List.mem_cons.mp hb with hb | hb
      · subst hb; exact Nat.le_of_lt hlt
      · exact Nat.le_trans (Nat.le_of_lt hlt) (hx b hb)
    · rw [if_neg hlt]
      refine List.pairwise_cons.mpr ⟨?_, ih hxs⟩
      intro b hb
      rcases List.mem_cons.mp ((insSorted_perm key a xs).mem_iff.mp hb) with hb | hb
      · subst hb; exact Nat.le_of_not_lt hlt
      · exact hx b hb

theorem sortByKey_perm {α : Type} (key : α → Nat) :
    ∀ l : List α, (sortByKey key l).Perm l := by
  intro l
  induction l with
  | nil => exact List.Perm.refl _
  | cons x xs ih =>
    exact (insSorted_perm key x (sortByKey key xs)).trans (ih.cons x)

theorem sortByKey_pairwise {α : Type} (key : α → Nat) :
    ∀ l : List α, (sortByKey key l).Pairwise (fun x y => key x ≤ key y) := by
  intro l
  induction l with
  | nil => simp [sortByKey]
  | cons x xs ih => exact insSorted_pairwise key x (sortByKey key xs) ih

theorem find?_min_of_sorted {α : Type} (key : α → Nat) (P : α → Bool) :
    ∀ l : List α, l.Pairwise (fun x y => key x ≤ key y) →
      ∀ x, l.find? P = some x → ∀ y ∈ l, P y = true → key x ≤ key y := by
  intro l
  induction l with
  | nil => intro _ x hx; cases hx
  | cons a tl ih =>
    intro h x hx y hy hPy
    rcases List.pairwise_cons.mp h with ⟨ha, htl⟩
    by_cases hPa : P a = true
    · rw [List.find?_cons_of_pos _ hPa] at hx
      cases hx
      rcases List.mem_cons.mp hy with hy | hy
      · subst hy; exact Nat.le_refl _
      · exact ha y hy
    · rw [List.find?_cons_of_neg _ (by simpa using hPa)] at hx
      rcases List.mem_cons.mp hy with hy | hy
      · subst hy; exact absurd hPy hPa
      · exact ih htl x hx y hy hPy

theorem find?_congr_mem {α : Type} {P Q : α → Bool} :
    ∀ l : List α, (∀ x ∈ l, P x = Q x) → l.find? P = l.find? Q := by
  intro l
  induction l with
  | nil => intro _; rfl
  | cons a tl ih =>
    intro h
    have ha : P a = Q a := h a (List.mem_cons_self a tl)
    by_cases hq : Q a = true
    · rw [List.find?_cons_of_pos _ hq, List.find?_cons_of_pos _ (ha ▸ hq)]
    · have hp : ¬P a = true := by rw [ha]; exact hq
      rw [List.find?_cons_of_neg _ hp, List.find?_cons_of_neg _ hq]
      exact ih fun x hx => h x (List.mem_cons_of_mem a hx)

theorem matchSpec_find?_sorted {α : Type} (key : α → Nat) (m : α → Bool) (l : List α)
    (h : l.Pairwise (fun x y => key x ≤ key y)) : matchSpec key m l (l.find? m) := by
  constructor
  · simp [List.find?_eq_none]
  · intro r hr
    exact ⟨List.find?_some hr, List.mem_of_find?_eq_some hr,
      find?_min_of_sorted key m l h r hr⟩

theorem matchSpec_perm {α : Type} (key : α → Nat) (m : α → Bool) {l l2 : List α}
    (hp : l.Perm l2) {res : Option α} :
    matchSpec key m l res → matchSpec key m l2 res := by
  intro h
  obtain ⟨h1, h2⟩ := h
  constructor
  · exact h1.trans ⟨fun h r hr => h r (hp.mem_iff.mpr hr), fun h r hr => h r (hp.mem_iff.mp hr)⟩
  · intro r hr
    obtain ⟨hm, hmem, hmin⟩ := h2 r hr
    exact ⟨hm, hp.mem_iff.mp hmem, fun q hq hmq => hmin q (hp.mem_iff.mpr hq) hmq⟩

theorem matchSpec_filter {α : Type} (key : α → Nat) (m cond : α → Bool) (l : List α)
    (hc : ∀ r, m r = true → cond r = true) {res : Option α} :
    matchSpec key m (l.filter cond) res → matchSpec key m l res := by
  intro h
  obtain ⟨h1, h2⟩ := h
  constructor
  · rw [h1]
    constructor
    · intro h r hr
      cases hm : m r with
      | false => rfl
      | true =>
        have hcontra := h r (List.mem_filter.mpr ⟨hr, hc r hm⟩)
        rw [hm] at hcontra
        exact hcontra
    · intro h r hr
      exact h r (List.mem_filter.mp hr).1
  · intro r hr
    obtain ⟨hm, hmem, hmin⟩ := h2 r hr
    exact ⟨hm, (List.mem_filter.mp hmem).1,
      fun q hq hmq => hmin q (List.mem_filter.mpr ⟨hq, hc q hmq⟩) hmq⟩

theorem matchSpec_better {α : Type} (key : α → Nat) (m : α → Bool) {A B : List α}
    {best cand : Option α} (hA : matchSpec key m A best) (hB : matchSpec key m B cand) :
    matchSpec key m (A ++ B) (better key best cand) := by
  obtain ⟨hA1, hA2⟩ := hA
  obtain ⟨hB1, hB2⟩ := hB
  cases cand with
  | none =>
    have hBnone : ∀ r ∈ B, m r = false := hB1.mp rfl
    constructor
    · rw [show better key best none = best from rfl, hA1]
      rw [List.forall_mem_append]
      exact ⟨fun h => ⟨h, hBnone⟩, fun h => h.1⟩
    · intro r hr
      obtain ⟨hm, hmem, hmin⟩ := hA2 r hr
      refine ⟨hm, List.mem_append_left _ hmem, ?_⟩
      intro q hq hmq
      rcases List.mem_append.mp hq with hq | hq
      · exact hmin q hq hmq
      · exact absurd hmq (by simp [hBnone q hq])
  | some c =>
    obtain ⟨hcM, hcMem, hcMin⟩ := hB2 c rfl
    cases best with
    | none =>
      have hAnone : ∀ r ∈ A, m r = false := hA1.mp rfl
      constructor
      · constructor
        · intro h; cases h
        · intro h
          exact absurd hcM (by simp [h c (List.mem_append_right _ hcMem)])
      · intro r hr
        cases hr
        refine ⟨hcM, List.mem_append_right _ hcMem, ?_⟩
        intro q hq hmq
        rcases List.mem_append.mp hq with hq | hq
        · exact absurd hmq (by simp [hAnone q hq])
        · exact hcMin q hq hmq
    | some b =>
      obtain ⟨hbM, hbMem, hbMin⟩ := hA2 b rfl
      show matchSpec key m (A ++ B) (if key c < key b then some c else some b)
      by_cases hlt : key c < key b
      · rw [if_pos hlt]
        constructor
        · constructor
          · intro h; cases h
          · intro h
            exact absurd hcM (by simp [h c (List.mem_append_right _ hcMem)])
        · intro r hr
          cases hr
          refine ⟨hcM, List.mem_append_right _ hcMem, ?_⟩
          intro q hq hmq
          rcases List.mem_append.mp hq with hq | hq
          · exact Nat.le_trans (Nat.le_of_lt hlt) (hbMin q hq hmq)
          · exact hcMin q hq hmq
      · rw [if_neg hlt]
        constructor
        · constructor
          · intro h; cases h
          · intro h
            exact absurd hbM (by simp [h b (List.mem_append_left _ hbMem)])
        · intro r hr
          cases hr
          refine ⟨hbM, List.mem_append_left _ hbMem, ?_⟩
          intro q hq hmq
          rcases List.mem_append.mp hq with hq | hq
          · exact hbMin q hq hmq
          · exact Nat.le_trans (Nat.le_of_not_lt hlt) (hcMin q hq hmq)

/-! ## HyperSplit search correctness -/

theorem rmatch_iff {r : RRule} {p : Pkt} :
    rmatch r p = true ↔ ∀ d, r.low d ≤ p.val d ∧ p.val d ≤ r.high d := by
  simp [rmatch]

theorem hs_leaf_spec (p : Pkt) (S : List RRule) :
    matchSpec RRule.pri (fun r => rmatch r p) S
      (hsSearch (.leaf (sortByKey RRule.pri S)) p) := by
  show matchSpec RRule.pri (fun r => rmatch r p) S
    ((sortByKey RRule.pri S).find? fun r => rmatch r p)
  exact matchSpec_perm _ _ (sortByKey_perm RRule.pri S)
    (matchSpec_find?_sorted RRule.pri _ _ (sortByKey_pairwise RRule.pri S))

theorem hs_spec (p : Pkt) : ∀ (fuel : Nat) (S : List RRule) (C : Cell),
    matchSpec RRule.pri (fun r => rmatch r p) S (hsSearch (hsBuild fuel S C) p) := by
  intro fuel
  induction fuel with
  | zero => intro S C; exact hs_leaf_spec p S
  | succ fuel ih =>
    intro S C
    rw [hsBuild]
    by_cases hb : S.length ≤ BINTH
    · rw [if_pos hb]; exact hs_leaf_spec p S
    · rw [if_neg hb]
      rcases hcs : chooseSplit S C with _ | ⟨d, t⟩
      · exact hs_leaf_spec p S
      · dsimp only
        by_cases hnp : (S.filter fun r => decide (r.low d ≤ t)).length = S.length
            ∧ (S.filter fun r => decide (t < r.high d)).length = S.length
        · rw [if_pos hnp]; exact hs_leaf_spec p S
        · rw [if_neg hnp]
          show matchSpec RRule.pri (fun r => rmatch r p) S (hsSearch (.node d t _ _) p)
          rw [hsSearch]
          by_cases hp2 : p.val d ≤ t
          · rw [if_pos hp2]
            refine matchSpec_filter RRule.pri _ _ S ?_ (ih _ _)
            intro r hm
            simp only [decide_eq_true_eq]
            exact Nat.le_trans ((rmatch_iff.mp hm) d).1 hp2
          · rw [if_neg hp2]
            refine matchSpec_filter RRule.pri _ _ S ?_ (ih _ _)
            intro r hm
            simp only [decide_eq_true_eq]
            exact Nat.lt_of_lt_of_le (Nat.lt_of_not_le hp2) ((rmatch_iff.mp hm) d).2

/-! ## TSS search correctness -/

theorem tss_chain_spec (p : Pkt) (b : Bucket)
    (hsort : b.chain.Pairwise (fun a c => a.pri ≤ c.pri))
    (hlen : ∀ r ∈ b.chain, r.len = b.lens) :
    matchSpec PRule.pri (fun r => pmatch r p) b.chain
      (b.chain.find? fun r => bucketMatch b.lens r p) := by
  have hcong : (b.chain.find? fun r => bucketMatch b.lens r p)
      = b.chain.find? fun r => pmatch r p := by
    refine find?_congr_mem b.chain ?_
    intro r hr
    unfold pmatch
    rw [hlen r hr]
  rw [hcong]
  exact matchSpec_find?_sorted PRule.pri _ _ hsort

theorem tss_go_spec (p : Pkt) : ∀ (bs : List Bucket) (A : List PRule) (best : Option PRule),
    IdxWF bs → matchSpec PRule.pri (fun r => pmatch r p) A best →
    matchSpec PRule.pri (fun r => pmatch r p) (A ++ rulesOf bs) (tssSearchGo p bs best) := by
  intro bs
  induction bs with
  | nil =>
    intro A best _ hA
    simpa [tssSearchGo, rulesOf] using hA
  | cons b bs ih =>
    intro A best hwf hA
    have hwfb := hwf b (List.mem_cons_self b bs)
    have hcand := tss_chain_spec p b hwfb.1 hwfb.2
    have hbetter := matchSpec_better PRule.pri _ hA hcand
    have hrec := ih (A ++ b.chain) _ (fun c hc => hwf c (List.mem_cons_of_mem b hc)) hbetter
    show matchSpec PRule.pri (fun r => pmatch r p) (A ++ (b.chain ++ rulesOf bs))
      (tssSearchGo p bs (better PRule.pri best (b.chain.find? fun r => bucketMatch b.lens r p)))
    rw [← List.append_assoc]
    exact hrec

theorem tss_search_spec (p : Pkt) (idx : List Bucket) (hwf : IdxWF idx) :
    matchSpec PRule.pri (fun r => pmatch r p) (rulesOf idx) (tssSearch idx p) := by
  have h0 : matchSpec PRule.pri (fun r => pmatch r p) ([] : List PRule) none := by
    constructor
    · simp
    · intro r hr; cases hr
  simpa [tssSearch] using tss_go_spec p idx [] none hwf h0

theorem IdxWF_insert (r : PRule) : ∀ idx, IdxWF idx → IdxWF (tssInsertRule r idx) := by
  intro idx
  induction idx with
  | nil =>
    intro _ b hb
    have hb2 : b = { lens := r.len, chain := [r] } := List.mem_singleton.mp hb
    subst hb2
    refine ⟨by simp, ?_⟩
    intro x hx
    have hx2 : x = r := List.mem_singleton.mp hx
    subst hx2
    rfl
  | cons b bs ih =>
    intro hwf c hc
    unfold tssInsertRule at hc
    by_cases heq : b.lens = r.len
    · rw [if_pos heq] at hc
      rcases List.mem_cons.mp hc with hc | hc
      · subst hc
        have hwfb := hwf b (List.mem_cons_self b bs)
        refine ⟨insSorted_pairwise PRule.pri r b.chain hwfb.1, ?_⟩
        intro x hx
        rcases List.mem_cons.mp ((insSorted_perm PRule.pri r b.chain).mem_iff.mp hx) with hx | hx
        · subst hx; exact heq.symm
        · exact hwfb.2 x hx
      · exact hwf c (List.mem_cons_of_mem b hc)
    · rw [if_neg heq] at hc
      rcases List.mem_cons.mp hc with hc | hc
      · subst hc; exact hwf c (List.mem_cons_self c bs)
      · exact ih (fun x hx => hwf x (List.mem_cons_of_mem b hx)) c hc

theorem rulesOf_insert (r : PRule) : ∀ idx, (rulesOf (tssInsertRule r idx)).Perm (r :: rulesOf idx) := by
  intro idx
  induction idx with
  | nil => simp [rulesOf, tssInsertRule]
  | cons b bs ih =>
    unfold tssInsertRule
    by_cases heq : b.lens = r.len
    · rw [if_pos heq]
      show (insSorted PRule.pri r b.chain ++ rulesOf bs).Perm (r :: (b.chain ++ rulesOf bs))
      exact (insSorted_perm PRule.pri r b.chain).append_right (rulesOf bs)
    · rw [if_neg heq]
      show (b.chain ++ rulesOf (tssInsertRule r bs)).Perm (r :: (b.chain ++ rulesOf bs))
      exact (List.Perm.append_left b.chain ih).trans List.perm_middle

theorem IdxWF_foldl : ∀ (rs : List PRule) (idx : List Bucket), IdxWF idx →
    IdxWF (rs.foldl (fun idx r => tssInsertRule r idx) idx) := by
  intro rs
  induction rs with
  | nil => intro idx h; exact h
  | cons r rs ih => intro idx h; exact ih _ (IdxWF_insert r idx h)

theorem rulesOf_foldl : ∀ (rs : List PRule) (idx : List Bucket),
    (rulesOf (rs.foldl (fun idx r => tssInsertRule r idx) idx)).Perm (rulesOf idx ++ rs) := by
  intro rs
  induction rs with
  | nil => intro idx; simp
  | cons r rs ih =>
    intro idx
    have h1 := ih (tssInsertRule r idx)
    have h2 : (rulesOf (tssInsertRule r idx) ++ rs).Perm ((r :: rulesOf idx) ++ rs) :=
      (rulesOf_insert r idx).append_right rs
    exact h1.trans (h2.trans List.perm_middle.symm)

theorem IdxWF_build (rs : List PRule) : IdxWF (tssBuild rs) :=
  IdxWF_foldl rs [] (fun b hb => absurd hb (List.not_mem_nil b))

theorem rulesOf_build (rs : List PRule) : (rulesOf (tssBuild rs)).Perm rs := by
  simpa [rulesOf] using rulesOf_foldl rs []

theorem key_inj_of_pairwise_ne {α : Type} (key : α → Nat) :
    ∀ l : List α, l.Pairwise (fun a b => key a ≠ key b) →
      ∀ {r q : α}, r ∈ l → q ∈ l → key r = key q → r = q := by
  intro l
  induction l with
  | nil => intro _ r q hr; cases hr
  | cons a tl ih =>
    intro h r q hr hq hk
    rcases List.pairwise_cons.mp h with ⟨ha, htl⟩
    rcases List.mem_cons.mp hr with hr2 | hr2
    · rcases List.mem_cons.mp hq with hq2 | hq2
      · rw [hr2, hq2]
      · rw [hr2] at hk; exact absurd hk (ha q hq2)
    · rcases List.mem_cons.mp hq with hq2 | hq2
      · rw [hq2] at hk; exact absurd hk.symm (ha r hr2)
      · exact ih htl hr2 hq2 hk

/-! ## Claims about the search engines -/

/-- C1: for both engines (HyperSplit over any depth budget and cell, TSS
over its built index), the per-packet search returns "no match" exactly
when no rule of the built rule set matches the packet, and any rule it
returns matches the packet, belongs to the rule set, and has the
numerically smallest priority value among all rules matching the
packet. -/
theorem claim_c1 :
    (∀ (fuel : Nat) (C : Cell) (rs : List RRule) (p : Pkt),
      (hsSearch (hsBuild fuel rs C) p = none ↔ ∀ r ∈ rs, rmatch r p = false)
      ∧ ∀ r, hsSearch (hsBuild fuel rs C) p = some r →
          rmatch r p = true ∧ r ∈ rs ∧ ∀ q ∈ rs, rmatch q p = true → r.pri ≤ q.pri)
    ∧ (∀ (rs : List PRule) (p : Pkt),
      (tssSearch (tssBuild rs) p = none ↔ ∀ r ∈ rs, pmatch r p = false)
      ∧ ∀ r, tssSearch (tssBuild rs) p = some r →
          pmatch r p = true ∧ r ∈ rs ∧ ∀ q ∈ rs, pmatch q p = true → r.pri ≤ q.pri) := by
  constructor
  · intro fuel C rs p
    exact hs_spec p fuel rs C
  · intro rs p
    exact matchSpec_perm PRule.pri _ (rulesOf_build rs) (tss_search_spec p _ (IdxWF_build rs))

theorem claim_c1_witness :
    (rmatch wRule wPkt = true ∧ wRule ∈ [wRule] ∧ wRule.pri ≤ wRule.pri)
    ∧ (pmatch wPRule wPkt = true ∧ wPRule ∈ [wPRule] ∧ wPRule.pri ≤ wPRule.pri) :=
  have h1 := (claim_c1.1 5 rootCell [wRule] wPkt).2 wRule (by decide)
  have h2 := (claim_c1.2 [wPRule] wPkt).2 wPRule (by decide)
  ⟨⟨h1.1, h1.2.1, h1.2.2 wRule (by decide) (by decide)⟩,
   ⟨h2.1, h2.2.1, h2.2.2 wPRule (by decide) (by decide)⟩⟩

/-- C7: after `insert_update(Δ, idx)` on a TSS index built from `R`, a
packet previously matched by rule `r` is still matched by `r`, unless
some rule of `Δ` with a strictly smaller priority value also matches the
packet, in which case the newly inserted rule is returned (priorities
are pairwise distinct, as they are 0-based rule identities). -/
theorem claim_c7 (R D : List PRule) (p : Pkt) (r : PRule)
    (hdist : (R ++ D).Pairwise fun a b => a.pri ≠ b.pri)
    (hs : tssSearch (tssBuild R) p = some r) :
    ((∀ d ∈ D, pmatch d p = true → r.pri ≤ d.pri) →
      tssSearch (tssInsrtUpdate D (tssBuild R)) p = some r)
    ∧ ((∃ d ∈ D, pmatch d p = true ∧ d.pri < r.pri) →
      ∃ q, tssSearch (tssInsrtUpdate D (tssBuild R)) p = some q
        ∧ q ∈ D ∧ pmatch q p = true ∧ q.pri < r.pri) := by
  have specB := matchSpec_perm PRule.pri _ (rulesOf_build R) (tss_search_spec p _ (IdxWF_build R))
  obtain ⟨hrm, hrR, hrmin⟩ := specB.2 r hs
  have hwfU : IdxWF (tssInsrtUpdate D (tssBuild R)) := IdxWF_foldl D _ (IdxWF_build R)
  have hpermU : (rulesOf (tssInsrtUpdate D (tssBuild R))).Perm (R ++ D) :=
    (rulesOf_foldl D (tssBuild R)).trans ((rulesOf_build R).append_right D)
  have specU := matchSpec_perm PRule.pri _ hpermU (tss_search_spec p _ hwfU)
  have hne : tssSearch (tssInsrtUpdate D (tssBuild R)) p ≠ none := by
    intro hnone
    have hall := specU.1.mp hnone
    have hfalse := hall r (List.mem_append_left D hrR)
    rw [hrm] at hfalse
    exact Bool.noConfusion hfalse
  rcases hqv : tssSearch (tssInsrtUpdate D (tssBuild R)) p with _ | q
  · exact absurd hqv hne
  obtain ⟨hqm, hqmem, hqmin⟩ := specU.2 q hqv
  constructor
  · intro hno
    have hqr : q.pri = r.pri := by
      have h1 : q.pri ≤ r.pri := hqmin r (List.mem_append_left D hrR) hrm
      have h2 : r.pri ≤ q.pri := by
        rcases List.mem_append.mp hqmem with hqR | hqD
        · exact hrmin q hqR hqm
        · exact hno q hqD hqm
      omega
    have heq : q = r :=
      key_inj_of_pairwise_ne PRule.pri (R ++ D) hdist hqmem (List.mem_append_left D hrR) hqr
    rw [heq]
  · rintro ⟨d, hdD, hdm, hdlt⟩
    have hqd : q.pri ≤ d.pri := hqmin d (List.mem_append_right R hdD) hdm
    have hqlt : q.pri < r.pri := Nat.lt_of_le_of_lt hqd hdlt
    have hqD : q ∈ D := by
      rcases List.mem_append.mp hqmem with hqR | hqD
      · exact absurd (hrmin q hqR hqm) (by omega)
      · exact hqD
    exact ⟨q, rfl, hqD, hqm, hqlt⟩

theorem claim_c7_witness :
    tssSearch (tssInsrtUpdate [wPbig] (tssBuild [wP0])) wPkt = some wP0 :=
  (claim_c7 [wP0] [wPbig] wPkt wP0 (by decide) (by decide)).1
    (by decide)

/-! ## Loader lemmas -/

theorem processCb_shape {rec : CbRec} {ru : RRule} (h : processCbRecord rec = .ok ru) :
    ru.low 0 = ip4 rec.s0 rec.s1 rec.s2 rec.s3 &&& maskU32 (clip32 rec.smask)
    ∧ ru.high 0 = ip4 rec.s0 rec.s1 rec.s2 rec.s3 ||| u32compl (maskU32 (clip32 rec.smask))
    ∧ ru.low 1 = ip4 rec.d0 rec.d1 rec.d2 rec.d3 &&& maskU32 (clip32 rec.dmask)
    ∧ ru.high 1 = ip4 rec.d0 rec.d1 rec.d2 rec.d3 ||| u32compl (maskU32 (clip32 rec.dmask))
    ∧ ru.low 2 = (if rec.spe &&& 0xffff < rec.spb &&& 0xffff
        then rec.spe &&& 0xffff else rec.spb &&& 0xffff)
    ∧ ru.high 2 = (if rec.spe &&& 0xffff < rec.spb &&& 0xffff
        then rec.spb &&& 0xffff else rec.spe &&& 0xffff)
    ∧ ru.low 3 = (if rec.dpe &&& 0xffff < rec.dpb &&& 0xffff
        then rec.dpe &&& 0xffff else rec.dpb &&& 0xffff)
    ∧ ru.high 3 = (if rec.dpe &&& 0xffff < rec.dpb &&& 0xffff
        then rec.dpb &&& 0xffff else rec.dpe &&& 0xffff)
    ∧ ((rec.pmask = 0xff ∧ ru.low 4 = rec.proto &&& 0xff ∧ ru.high 4 = rec.proto &&& 0xff)
       ∨ (rec.pmask = 0 ∧ ru.low 4 = 0 ∧ ru.high 4 = 0xff))
    ∧ ru.pri = (rec.rid + (2 ^ 32 - 1)) % 2 ^ 32 := by
  unfold processCbRecord at h
  by_cases hff : rec.pmask = 0xff
  · rw [if_pos hff] at h
    cases h
    exact ⟨rfl, rfl, rfl, rfl, rfl, rfl, rfl, rfl, Or.inl ⟨hff, rfl, rfl⟩, rfl⟩
  · rw [if_neg hff] at h
    by_cases h0 : rec.pmask = 0
    · rw [if_pos h0] at h
      cases h
      exact ⟨rfl, rfl, rfl, rfl, rfl, rfl, rfl, rfl, Or.inr ⟨h0, rfl, rfl⟩, rfl⟩
    · rw [if_neg h0] at h
      cases h

theorem processPrfx_shape {rec : PrfxRec} {ru : PRule} (h : processPrfxRecord rec = .ok ru) :
    ru.val 0 = ip4 rec.s0 rec.s1 rec.s2 rec.s3 &&& maskU32 (clip32 rec.smask)
    ∧ ru.len 0 = clip32 rec.smask
    ∧ ru.val 1 = ip4 rec.d0 rec.d1 rec.d2 rec.d3 &&& maskU32 (clip32 rec.dmask)
    ∧ ru.len 1 = clip32 rec.dmask
    ∧ ru.val 2 = rec.sport &&& 0xffff
    ∧ ru.len 2 = rec.spmask
    ∧ ru.val 3 = rec.dport &&& 0xffff
    ∧ ru.len 3 = rec.dpmask
    ∧ ((rec.pmask = 0xff ∧ ru.val 4 = rec.proto &&& 0xff ∧ ru.len 4 = 8)
       ∨ (rec.pmask = 0 ∧ ru.val 4 = 0 ∧ ru.len 4 = 0))
    ∧ ru.pri = (rec.rid + (2 ^ 32 - 1)) % 2 ^ 32 := by
  unfold processPrfxRecord at h
  by_cases hff : rec.pmask = 0xff
  · rw [if_pos hff] at h
    cases h
    exact ⟨rfl, rfl, rfl, rfl, rfl, rfl, rfl, rfl, Or.inl ⟨hff, rfl, rfl⟩, rfl⟩
  · rw [if_neg hff] at h
    by_cases h0 : rec.pmask = 0
    · rw [if_pos h0] at h
      cases h
      exact ⟨rfl, rfl, rfl, rfl, rfl, rfl, rfl, rfl, Or.inr ⟨h0, rfl, rfl⟩, rfl⟩
    · rw [if_neg h0] at h
      cases h

theorem processCb_badMask {rec : CbRec} (h1 : rec.pmask ≠ 0xff) (h2 : rec.pmask ≠ 0) :
    processCbRecord rec = .error .badProtoMask := by
  unfold processCbRecord
  rw [if_neg h1, if_neg h2]

theorem processPrfx_badMask {rec : PrfxRec} (h1 : rec.pmask ≠ 0xff) (h2 : rec.pmask ≠ 0) :
    processPrfxRecord rec = .error .badProtoMask := by
  unfold processPrfxRecord
  rw [if_neg h1, if_neg h2]

theorem processCb_ok_of_mask {rec : CbRec} (h : rec.pmask = 0xff ∨ rec.pmask = 0) :
    ∃ ru, processCbRecord rec = .ok ru := by
  unfold processCbRecord
  rcases h with h | h
  · rw [if_pos h]
    exact ⟨_, rfl⟩
  · rw [if_neg (by simp [h]), if_pos h]
    exact ⟨_, rfl⟩

theorem processPrfx_ok_of_mask {rec : PrfxRec} (h : rec.pmask = 0xff ∨ rec.pmask = 0) :
    ∃ ru, processPrfxRecord rec = .ok ru := by
  unfold processPrfxRecord
  rcases h with h | h
  · rw [if_pos h]
    exact ⟨_, rfl⟩
  · rw [if_neg (by simp [h]), if_pos h]
    exact ⟨_, rfl⟩

theorem processCb_err_is_mask {rec : CbRec} {e : LoadErr} (h : processCbRecord rec = .error e) :
    e = .badProtoMask := by
  unfold processCbRecord at h
  by_cases hff : rec.pmask = 0xff
  · rw [if_pos hff] at h; cases h
  · rw [if_neg hff] at h
    by_cases h0 : rec.pmask = 0
    · rw [if_pos h0] at h; cases h
    · rw [if_neg h0] at h; cases h; rfl

theorem processPrfx_err_is_mask {rec : PrfxRec} {e : LoadErr}
    (h : processPrfxRecord rec = .error e) : e = .badProtoMask := by
  unfold processPrfxRecord at h
  by_cases hff : rec.pmask = 0xff
  · rw [if_pos hff] at h; cases h
  · rw [if_neg hff] at h
    by_cases h0 : rec.pmask = 0
    · rw [if_pos h0] at h; cases h
    · rw [if_neg h0] at h; cases h; rfl

theorem goCb_forall₂ {eofSet : Bool} : ∀ (recs : List CbRec) (i : Nat) {rules : List RRule},
    goCb eofSet recs i = .ok rules →
    List.Forall₂ (fun rec ru => processCbRecord rec = .ok ru) recs rules := by
  intro recs
  induction recs with
  | nil =>
    intro i rules h
    unfold goCb at h
    by_cases he : eofSet = true
    · rw [if_pos he] at h
      cases h
      exact List.Forall₂.nil
    · rw [if_neg he] at h
      by_cases hi : RULE_MAX ≤ i
      · rw [if_pos hi] at h; cases h
      · rw [if_neg hi] at h; cases h
  | cons rec rest ih =>
    intro i rules h
    unfold goCb at h
    by_cases hi : RULE_MAX ≤ i
    · rw [if_pos hi] at h; cases h
    · rw [if_neg hi] at h
      rcases hp : processCbRecord rec with e | ru
      · rw [hp] at h; cases h
      · rw [hp] at h
        rcases hr : goCb eofSet rest (i + 1) with e | rus
        · rw [hr] at h; cases h
        · rw [hr] at h
          cases h
          exact List.Forall₂.cons hp (ih (i + 1) hr)

theorem goPrfx_forall₂ {eofSet : Bool} : ∀ (recs : List PrfxRec) (i : Nat) {rules : List PRule},
    goPrfx eofSet recs i = .ok rules →
    List.Forall₂ (fun rec ru => processPrfxRecord rec = .ok ru) recs rules := by
  intro recs
  induction recs with
  | nil =>
    intro i rules h
    unfold goPrfx at h
    by_cases he : eofSet = true
    · rw [if_pos he] at h
      cases h
      exact List.Forall₂.nil
    · rw [if_neg he] at h
      by_cases hi : RULE_MAX ≤ i
      · rw [if_pos hi] at h; cases h
      · rw [if_neg hi] at h; cases h
  | cons rec rest ih =>
    intro i rules h
    unfold goPrfx at h
    by_cases hi : RULE_MAX ≤ i
    · rw [if_pos hi] at h; cases h
    · rw [if_neg hi] at h
      rcases hp : processPrfxRecord rec with e | ru
      · rw [hp] at h; cases h
      · rw [hp] at h
        rcases hr : goPrfx eofSet rest (i + 1) with e | rus
        · rw [hr] at h; cases h
        · rw [hr] at h
          cases h
          exact List.Forall₂.cons hp (ih (i + 1) hr)

theorem goTrace_ok {eofSet : Bool} : ∀ (recs : List TraceRec) (i : Nat) {pkts : List TracePkt},
    goTrace eofSet recs i = .ok pkts → pkts = recs.map processTraceRec := by
  intro recs
  induction recs with
  | nil =>
    intro i pkts h
    unfold goTrace at h
    by_cases he : eofSet = true
    · rw [if_pos he] at h
      cases h
      rfl
    · rw [if_neg he] at h
      by_cases hi : PKT_MAX ≤ i
      · rw [if_pos hi] at h; cases h
      · rw [if_neg hi] at h; cases h
  | cons rec rest ih =>
    intro i pkts h
    unfold goTrace at h
    by_cases hi : PKT_MAX ≤ i
    · rw [if_pos hi] at h; cases h
    · rw [if_neg hi] at h
      rcases hr : goTrace eofSet rest (i + 1) with e | ps
      · rw [hr] at h; cases h
      · rw [hr] at h
        cases h
        rw [List.map_cons, ih (i + 1) hr]

theorem forall₂_mem_right {α β : Type} {R : α → β → Prop} :
    ∀ {l₁ : List α} {l₂ : List β}, List.Forall₂ R l₁ l₂ →
      ∀ {b : β}, b ∈ l₂ → ∃ a ∈ l₁, R a b := by
  intro l₁ l₂ h
  induction h with
  | nil => intro b hb; cases hb
  | cons hab htl ih =>
    intro b hb
    rcases List.mem_cons.mp hb with hb | hb
    · exact ⟨_, List.mem_cons_self _ _, hb ▸ hab⟩
    · obtain ⟨a, ha, hR⟩ := ih hb
      exact ⟨a, List.mem_cons_of_mem _ ha, hR⟩

theorem forall₂_self_map {α β : Type} {R : α → β → Prop} {f : α → β} :
    ∀ l : List α, (∀ a ∈ l, R a (f a)) → List.Forall₂ R l (l.map f) := by
  intro l
  induction l with
  | nil => intro _; exact List.Forall₂.nil
  | cons a tl ih =>
    intro h
    exact List.Forall₂.cons (h a (List.mem_cons_self a tl))
      (ih fun x hx => h x (List.mem_cons_of_mem a hx))

theorem forall₂_mem_left {α β : Type} {R : α → β → Prop} :
    ∀ {l₁ : List α} {l₂ : List β}, List.Forall₂ R l₁ l₂ →
      ∀ {a : α}, a ∈ l₁ → ∃ b ∈ l₂, R a b := by
  intro l₁ l₂ h
  induction h with
  | nil => intro a ha; cases ha
  | cons hab htl ih =>
    intro a ha
    rcases List.mem_cons.mp ha with ha | ha
    · exact ⟨_, List.mem_cons_self _ _, ha ▸ hab⟩
    · obtain ⟨b, hb, hR⟩ := ih ha
      exact ⟨b, List.mem_cons_of_mem _ hb, hR⟩

/-! ## Arithmetic bridging lemmas -/

theorem maskU32_eq {m : Nat} (hm : m ≤ 32) : maskU32 m = 2 ^ 32 - 2 ^ (32 - m) := by
  unfold maskU32
  rw [Nat.one_shiftLeft]
  have h1 : 1 ≤ (2:Nat) ^ (32 - m) := Nat.one_le_two_pow
  have h2 : (2:Nat) ^ (32 - m) ≤ 2 ^ 32 := Nat.pow_le_pow_right (by norm_num) (by omega)
  have h64 : (2:Nat) ^ 64 = 18446744073709551616 := by norm_num
  have h32 : (2:Nat) ^ 32 = 4294967296 := by norm_num
  rw [h64, h32]
  rw [h32] at h2
  set k := (2:Nat) ^ (32 - m) with hk
  have hd : 18446744073709551616 - 1 - (k - 1) = 4294967296 * 4294967295 + (4294967296 - k) := by
    omega
  rw [hd, Nat.mul_add_mod]
  omega

theorem clip32_eq_min (m : Nat) : clip32 m = min m 32 := by
  unfold clip32
  split <;> omega

theorem maskclip_eq (m : Nat) :
    maskU32 (clip32 m) = 2 ^ 32 - 1 - (2 ^ (32 - min m 32) - 1) := by
  rw [clip32_eq_min, maskU32_eq (Nat.min_le_right m 32)]
  have h1 : 1 ≤ (2:Nat) ^ (32 - min m 32) := Nat.one_le_two_pow
  have h2 : (2:Nat) ^ (32 - min m 32) ≤ 2 ^ 32 :=
    Nat.pow_le_pow_right (by norm_num) (by omega)
  omega

theorem u32compl_maskclip (m : Nat) :
    u32compl (maskU32 (clip32 m)) = 2 ^ (32 - min m 32) - 1 := by
  unfold u32compl
  rw [maskclip_eq]
  have h1 : 1 ≤ (2:Nat) ^ (32 - min m 32) := Nat.one_le_two_pow
  have h2 : (2:Nat) ^ (32 - min m 32) ≤ 2 ^ 32 :=
    Nat.pow_le_pow_right (by norm_num) (by omega)
  omega

theorem u32compl_lt (x : Nat) : u32compl x < 2 ^ 32 := by
  unfold u32compl
  have h32 : (2:Nat) ^ 32 = 4294967296 := by norm_num
  omega

theorem ip4_lt (a b c d : Nat) : ip4 a b c d < 2 ^ 32 := by
  unfold ip4
  have hb : ∀ x : Nat, x &&& 0xff ≤ 0xff := fun x => Nat.and_le_right
  have h0 : (a &&& 0xff) <<< 24 < 2 ^ 32 := by
    rw [Nat.shiftLeft_eq]
    exact Nat.lt_of_le_of_lt (Nat.mul_le_mul_right _ (hb a)) (by norm_num)
  have h1 : (b &&& 0xff) <<< 16 < 2 ^ 32 := by
    rw [Nat.shiftLeft_eq]
    exact Nat.lt_of_le_of_lt (Nat.mul_le_mul_right _ (hb b)) (by norm_num)
  have h2 : (c &&& 0xff) <<< 8 < 2 ^ 32 := by
    rw [Nat.shiftLeft_eq]
    exact Nat.lt_of_le_of_lt (Nat.mul_le_mul_right _ (hb c)) (by norm_num)
  have h3 : d &&& 0xff < 2 ^ 32 := Nat.lt_of_le_of_lt (hb d) (by norm_num)
  exact Nat.or_lt_two_pow (Nat.or_lt_two_pow (Nat.or_lt_two_pow h0 h1) h2) h3

/-! ## Claims about the ingestion adapters -/

/-- C2: for every line parsed by `load_cb_rules`, the stored IP range is
`low = ip & ~((1 << (32 - m)) - 1)`, `high = ip | ((1 << (32 - m)) - 1)`
with `m` clamped to 32 first, for the source-IP and destination-IP
dimensions; the wildcard `m = 0` yields the full range. -/
theorem claim_c2 (recs : List CbRec) (eofSet : Bool) (rules : List RRule)
    (h : load_cb_rules recs eofSet = .ok rules) :
    List.Forall₂ (fun rec ru =>
      (ru.low 0 = cbClaimLow rec.smask (ip4 rec.s0 rec.s1 rec.s2 rec.s3)
        ∧ ru.high 0 = cbClaimHigh rec.smask (ip4 rec.s0 rec.s1 rec.s2 rec.s3))
      ∧ (ru.low 1 = cbClaimLow rec.dmask (ip4 rec.d0 rec.d1 rec.d2 rec.d3)
        ∧ ru.high 1 = cbClaimHigh rec.dmask (ip4 rec.d0 rec.d1 rec.d2 rec.d3))
      ∧ (rec.smask = 0 → ru.low 0 = 0 ∧ ru.high 0 = 2 ^ 32 - 1)
      ∧ (rec.dmask = 0 → ru.low 1 = 0 ∧ ru.high 1 = 2 ^ 32 - 1)) recs rules := by
  refine (goCb_forall₂ recs 0 h).imp ?_
  intro rec ru hp
  obtain ⟨hl0, hh0, hl1, hh1, _, _, _, _, _, _⟩ := processCb_shape hp
  have hm0 : maskU32 (clip32 0) = 0 := by decide
  have hc0 : u32compl (maskU32 (clip32 0)) = 2 ^ 32 - 1 := by decide
  refine ⟨⟨?_, ?_⟩, ⟨?_, ?_⟩, ?_, ?_⟩
  · rw [hl0]; unfold cbClaimLow; rw [maskclip_eq]
  · rw [hh0]; unfold cbClaimHigh; rw [u32compl_maskclip]
  · rw [hl1]; unfold cbClaimLow; rw [maskclip_eq]
  · rw [hh1]; unfold cbClaimHigh; rw [u32compl_maskclip]
  · intro hz
    constructor
    · rw [hl0, hz, hm0, Nat.and_zero]
    · rw [hh0, hz, hc0]
      exact or_all_ones (ip4_lt rec.s0 rec.s1 rec.s2 rec.s3)
  · intro hz
    constructor
    · rw [hl1, hz, hm0, Nat.and_zero]
    · rw [hh1, hz, hc0]
      exact or_all_ones (ip4_lt rec.d0 rec.d1 rec.d2 rec.d3)

theorem claim_c2_witness :
    ruleW2.low 0 = cbClaimLow recW2.smask (ip4 recW2.s0 recW2.s1 recW2.s2 recW2.s3)
    ∧ ruleW2.high 0 = cbClaimHigh recW2.smask (ip4 recW2.s0 recW2.s1 recW2.s2 recW2.s3)
    ∧ ruleW2.low 1 = cbClaimLow recW2.dmask (ip4 recW2.d0 recW2.d1 recW2.d2 recW2.d3)
    ∧ ruleW2.high 1 = cbClaimHigh recW2.dmask (ip4 recW2.d0 recW2.d1 recW2.d2 recW2.d3) := by
  have h := claim_c2 [recW2] true [ruleW2] (by decide)
  cases h with
  | cons hrel _ => exact ⟨hrel.1.1, hrel.1.2, hrel.2.1.1, hrel.2.1.2⟩

/-- C3: every rule loaded by `load_cb_rules` satisfies `low ≤ high` in
all five dimensions with values within the dimension widths; port bounds
given out of order are swapped (the stored bounds are min and max of the
two given values), and the protocol dimension is an exact pair or the
full wildcard `[0, 255]`. -/
theorem claim_c3 (recs : List CbRec) (eofSet : Bool) (rules : List RRule)
    (h : load_cb_rules recs eofSet = .ok rules) :
    List.Forall₂ (fun rec ru =>
      (∀ d, ru.low d ≤ ru.high d ∧ ru.high d < 2 ^ dimWidth d)
      ∧ (ru.low 2 = min (rec.spb &&& 0xffff) (rec.spe &&& 0xffff)
         ∧ ru.high 2 = max (rec.spb &&& 0xffff) (rec.spe &&& 0xffff))
      ∧ (ru.low 3 = min (rec.dpb &&& 0xffff) (rec.dpe &&& 0xffff)
         ∧ ru.high 3 = max (rec.dpb &&& 0xffff) (rec.dpe &&& 0xffff))
      ∧ (ru.low 4 = ru.high 4 ∨ (ru.low 4 = 0 ∧ ru.high 4 = 255))) recs rules := by
  refine (goCb_forall₂ recs 0 h).imp ?_
  intro rec ru hp
  obtain ⟨hl0, hh0, hl1, hh1, hl2, hh2, hl3, hh3, hproto, _⟩ := processCb_shape hp
  have hsp : rec.spb &&& 0xffff ≤ 0xffff := Nat.and_le_right
  have hse : rec.spe &&& 0xffff ≤ 0xffff := Nat.and_le_right
  have hdp : rec.dpb &&& 0xffff ≤ 0xffff := Nat.and_le_right
  have hde : rec.dpe &&& 0xffff ≤ 0xffff := Nat.and_le_right
  refine ⟨?_, ⟨?_, ?_⟩, ⟨?_, ?_⟩, ?_⟩
  · intro d
    fin_cases d
    · constructor
      · show ru.low 0 ≤ ru.high 0
        rw [hl0, hh0]
        exact Nat.le_trans Nat.and_le_left (nat_le_or_left _ _)
      · show ru.high 0 < 2 ^ dimWidth 0
        rw [hh0]
        exact Nat.or_lt_two_pow (ip4_lt rec.s0 rec.s1 rec.s2 rec.s3)
          (u32compl_lt (maskU32 (clip32 rec.smask)))
    · constructor
      · show ru.low 1 ≤ ru.high 1
        rw [hl1, hh1]
        exact Nat.le_trans Nat.and_le_left (nat_le_or_left _ _)
      · show ru.high 1 < 2 ^ dimWidth 1
        rw [hh1]
        exact Nat.or_lt_two_pow (ip4_lt rec.d0 rec.d1 rec.d2 rec.d3)
          (u32compl_lt (maskU32 (clip32 rec.dmask)))
    · constructor
      · show ru.low 2 ≤ ru.high 2
        rw [hl2, hh2]
        split <;> omega
      · show ru.high 2 < 2 ^ dimWidth 2
        rw [hh2]
        have h16 : (2:Nat) ^ dimWidth 2 = 65536 := by norm_num [dimWidth]
        rw [h16]
        split <;> omega
    · constructor
      · show ru.low 3 ≤ ru.high 3
        rw [hl3, hh3]
        split <;> omega
      · show ru.high 3 < 2 ^ dimWidth 3
        rw [hh3]
        have h16 : (2:Nat) ^ dimWidth 3 = 65536 := by norm_num [dimWidth]
        rw [h16]
        split <;> omega
    · have hpb : rec.proto &&& 0xff ≤ 0xff := Nat.and_le_right
      have h8 : (2:Nat) ^ dimWidth 4 = 256 := by norm_num [dimWidth]
      rcases hproto with ⟨_, hl4, hh4⟩ | ⟨_, hl4, hh4⟩
      · constructor
        · show ru.low 4 ≤ ru.high 4
          rw [hl4, hh4]
        · show ru.high 4 < 2 ^ dimWidth 4
          rw [hh4, h8]
          omega
      · constructor
        · show ru.low 4 ≤ ru.high 4
          rw [hl4, hh4]
          omega
        · show ru.high 4 < 2 ^ dimWidth 4
          rw [hh4, h8]
          omega
  · rw [hl2]
    split <;> omega
  · rw [hh2]
    split <;> omega
  · rw [hl3]
    split <;> omega
  · rw [hh3]
    split <;> omega
  · rcases hproto with ⟨_, hl4, hh4⟩ | ⟨_, hl4, hh4⟩
    · exact Or.inl (by rw [hl4, hh4])
    · exact Or.inr ⟨hl4, hh4⟩

theorem claim_c3_witness :
    (cbRuleOk.low 0 ≤ cbRuleOk.high 0 ∧ cbRuleOk.high 0 < 2 ^ dimWidth 0)
    ∧ (cbRuleOk.low 4 ≤ cbRuleOk.high 4 ∧ cbRuleOk.high 4 < 2 ^ dimWidth 4)
    ∧ cbRuleOk.low 2 = min (cbRecOk.spb &&& 0xffff) (cbRecOk.spe &&& 0xffff)
    ∧ cbRuleOk.high 2 = max (cbRecOk.spb &&& 0xffff) (cbRecOk.spe &&& 0xffff)
    ∧ (cbRuleOk.low 4 = cbRuleOk.high 4 ∨ (cbRuleOk.low 4 = 0 ∧ cbRuleOk.high 4 = 255)) := by
  have h := claim_c3 [cbRecOk] true [cbRuleOk] (by decide)
  cases h with
  | cons hrel _ => exact ⟨hrel.1 0, hrel.1 4, hrel.2.1.1, hrel.2.1.2, hrel.2.2.2⟩

/-- C4: both loaders accept only the protocol masks `0xFF` (stored as an
exact match on the protocol byte) and `0x00` (stored as the wildcard);
any other protocol mask is a fatal error, and a file containing such a
line is never loaded successfully. -/
theorem claim_c4 :
    (∀ rec : CbRec,
      (rec.pmask = 0xff → ∃ ru, processCbRecord rec = .ok ru
        ∧ ru.low 4 = rec.proto &&& 0xff ∧ ru.high 4 = rec.proto &&& 0xff)
      ∧ (rec.pmask = 0 → ∃ ru, processCbRecord rec = .ok ru
        ∧ ru.low 4 = 0 ∧ ru.high 4 = 0xff)
      ∧ (rec.pmask ≠ 0xff → rec.pmask ≠ 0 → processCbRecord rec = .error .badProtoMask))
    ∧ (∀ rec : PrfxRec,
      (rec.pmask = 0xff → ∃ ru, processPrfxRecord rec = .ok ru
        ∧ ru.val 4 = rec.proto &&& 0xff ∧ ru.len 4 = 8)
      ∧ (rec.pmask = 0 → ∃ ru, processPrfxRecord rec = .ok ru
        ∧ ru.val 4 = 0 ∧ ru.len 4 = 0)
      ∧ (rec.pmask ≠ 0xff → rec.pmask ≠ 0 → processPrfxRecord rec = .error .badProtoMask))
    ∧ (∀ (recs : List CbRec) (eofSet : Bool) (rec : CbRec), rec ∈ recs →
        rec.pmask ≠ 0xff → rec.pmask ≠ 0 → ∀ rules, load_cb_rules recs eofSet ≠ .ok rules)
    ∧ (∀ (recs : List PrfxRec) (eofSet : Bool) (rec : PrfxRec), rec ∈ recs →
        rec.pmask ≠ 0xff → rec.pmask ≠ 0 → ∀ rules, load_prfx_rules recs eofSet ≠ .ok rules) := by
  refine ⟨?_, ?_, ?_, ?_⟩
  · intro rec
    refine ⟨?_, ?_, processCb_badMask⟩
    · intro hff
      unfold processCbRecord
      rw [if_pos hff]
      exact ⟨_, rfl, rfl, rfl⟩
    · intro h0
      unfold processCbRecord
      rw [if_neg (by simp [h0]), if_pos h0]
      exact ⟨_, rfl, rfl, rfl⟩
  · intro rec
    refine ⟨?_, ?_, processPrfx_badMask⟩
    · intro hff
      unfold processPrfxRecord
      rw [if_pos hff]
      exact ⟨_, rfl, rfl, rfl⟩
    · intro h0
      unfold processPrfxRecord
      rw [if_neg (by simp [h0]), if_pos h0]
      exact ⟨_, rfl, rfl, rfl⟩
  · intro recs eofSet rec hmem h1 h2 rules hok
    obtain ⟨ru, _, hpro⟩ := forall₂_mem_left (goCb_forall₂ recs 0 hok) hmem
    rw [processCb_badMask h1 h2] at hpro
    cases hpro
  · intro recs eofSet rec hmem h1 h2 rules hok
    obtain ⟨ru, _, hpro⟩ := forall₂_mem_left (goPrfx_forall₂ recs 0 hok) hmem
    rw [processPrfx_badMask h1 h2] at hpro
    cases hpro

theorem claim_c4_witness :
    processCbRecord recBad = .error .badProtoMask
    ∧ processPrfxRecord prfxRecBad = .error .badProtoMask
    ∧ load_cb_rules [recBad] true ≠ .ok []
    ∧ load_prfx_rules [prfxRecBad] true ≠ .ok [] :=
  ⟨(claim_c4.1 recBad).2.2 (by decide) (by decide),
   (claim_c4.2.1 prfxRecBad).2.2 (by decide) (by decide),
   claim_c4.2.2.1 [recBad] true recBad (List.mem_singleton.mpr rfl)
     (by decide) (by decide) [],
   claim_c4.2.2.2 [prfxRecBad] true prfxRecBad (List.mem_singleton.mpr rfl)
     (by decide) (by decide) []⟩

/-- C5: stored priorities are the 1-based rule ids minus one, in both
rule loaders; the expected-match priority of a trace packet is the
1-based expected rule id minus one. -/
theorem claim_c5 :
    (∀ (recs : List CbRec) (eofSet : Bool) (rules : List RRule),
      load_cb_rules recs eofSet = .ok rules →
      List.Forall₂ (fun rec ru => 1 ≤ rec.rid → rec.rid < 2 ^ 32 → ru.pri = rec.rid - 1)
        recs rules)
    ∧ (∀ (recs : List PrfxRec) (eofSet : Bool) (rules : List PRule),
      load_prfx_rules recs eofSet = .ok rules →
      List.Forall₂ (fun rec ru => 1 ≤ rec.rid → rec.rid < 2 ^ 32 → ru.pri = rec.rid - 1)
        recs rules)
    ∧ (∀ (recs : List TraceRec) (eofSet : Bool) (pkts : List TracePkt),
      load_trace recs eofSet = .ok pkts →
      List.Forall₂
        (fun rec pk => 1 ≤ rec.matchId → rec.matchId < 2 ^ 32 → pk.expected = rec.matchId - 1)
        recs pkts) := by
  have h32 : (2:Nat) ^ 32 = 4294967296 := by norm_num
  refine ⟨?_, ?_, ?_⟩
  · intro recs eofSet rules h
    refine (goCb_forall₂ recs 0 h).imp ?_
    intro rec ru hp h1 h2
    have hpri := (processCb_shape hp).2.2.2.2.2.2.2.2.2
    rw [hpri, h32]
    rw [h32] at h2
    omega
  · intro recs eofSet rules h
    refine (goPrfx_forall₂ recs 0 h).imp ?_
    intro rec ru hp h1 h2
    have hpri := (processPrfx_shape hp).2.2.2.2.2.2.2.2.2
    rw [hpri, h32]
    rw [h32] at h2
    omega
  · intro recs eofSet pkts h
    rw [goTrace_ok recs 0 h]
    refine forall₂_self_map recs ?_
    intro rec hrec h1 h2
    show (rec.matchId % 2 ^ 32 + (2 ^ 32 - 1)) % 2 ^ 32 = rec.matchId - 1
    rw [h32]
    rw [h32] at h2
    omega

theorem claim_c5_witness :
    ruleW2.pri = recW2.rid - 1
    ∧ prfxRuleW.pri = prfxRecW.rid - 1
    ∧ tracePktW.expected = traceRecW.matchId - 1 := by
  have h1 := claim_c5.1 [recW2] true [ruleW2] (by decide)
  have h2 := claim_c5.2.1 [prfxRecW] true [prfxRuleW] (by decide)
  have h3 := claim_c5.2.2 [traceRecW] true [tracePktW] (by decide)
  refine ⟨?_, ?_, ?_⟩
  · cases h1 with
    | cons hrel _ => exact hrel (by decide) (by decide)
  · cases h2 with
    | cons hrel _ => exact hrel (by decide) (by decide)
  · cases h3 with
    | cons hrel _ => exact hrel (by decide) (by decide)

/-- C9: after `load_prfx_rules` returns, every loaded rule's per-dimension
mask length is at most the dimension width: IP lengths are clamped to 32,
the protocol length is 8 or 0, and the port mask lengths read from the
file lie within 0..16 (as the prfx file format guarantees). -/
theorem claim_c9 (recs : List PrfxRec) (eofSet : Bool) (rules : List PRule)
    (h : load_prfx_rules recs eofSet = .ok rules)
    (hports : ∀ rec ∈ recs, rec.spmask ≤ 16 ∧ rec.dpmask ≤ 16) :
    ∀ ru ∈ rules, (∀ d, ru.len d ≤ dimWidth d) ∧ (ru.len 4 = 8 ∨ ru.len 4 = 0) := by
  intro ru hru
  obtain ⟨rec, hrec, hp⟩ := forall₂_mem_right (goPrfx_forall₂ recs 0 h) hru
  obtain ⟨_, hlen0, _, hlen1, _, hlen2, _, hlen3, hpr, _⟩ := processPrfx_shape hp
  obtain ⟨hsp, hdp⟩ := hports rec hrec
  have hclip : ∀ m, clip32 m ≤ 32 := by
    intro m
    unfold clip32
    split <;> omega
  constructor
  · intro d
    fin_cases d
    · show ru.len 0 ≤ 32
      rw [hlen0]
      exact hclip rec.smask
    · show ru.len 1 ≤ 32
      rw [hlen1]
      exact hclip rec.dmask
    · show ru.len 2 ≤ 16
      rw [hlen2]
      exact hsp
    · show ru.len 3 ≤ 16
      rw [hlen3]
      exact hdp
    · show ru.len 4 ≤ 8
      rcases hpr with ⟨_, _, h4⟩ | ⟨_, _, h4⟩ <;> rw [h4] <;> omega
  · rcases hpr with ⟨_, _, h4⟩ | ⟨_, _, h4⟩
    · exact Or.inl h4
    · exact Or.inr h4

theorem goCb_err_of_over {eofSet : Bool} : ∀ (recs : List CbRec) (i : Nat),
    i ≤ RULE_MAX → RULE_MAX < i + recs.length → ∃ e, goCb eofSet recs i = .error e := by
  intro recs
  induction recs with
  | nil =>
    intro i h1 h2
    exfalso
    simp at h2
    omega
  | cons rec rest ih =>
    intro i h1 h2
    have hlen : RULE_MAX < (i + 1) + rest.length := by
      simp at h2
      omega
    unfold goCb
    by_cases hi : RULE_MAX ≤ i
    · rw [if_pos hi]
      exact ⟨_, rfl⟩
    · rw [if_neg hi]
      rcases hp : processCbRecord rec with e | ru
      · exact ⟨e, rfl⟩
      · obtain ⟨e, he⟩ := ih (i + 1) (by omega) hlen
        rw [he]
        exact ⟨e, rfl⟩

theorem goCb_no_tooMany_lt {eofSet : Bool} : ∀ (recs : List CbRec) (i : Nat),
    i + recs.length < RULE_MAX → goCb eofSet recs i ≠ .error .tooMany := by
  intro recs
  induction recs with
  | nil =>
    intro i h
    unfold goCb
    by_cases he : eofSet = true
    · rw [if_pos he]
      exact fun hc => Except.noConfusion hc
    · rw [if_neg he, if_neg (show ¬RULE_MAX ≤ i by simp at h; omega)]
      exact fun hc => LoadErr.noConfusion (Except.error.inj hc)
  | cons rec rest ih =>
    intro i h
    have hlen : (i + 1) + rest.length < RULE_MAX := by
      simp at h
      omega
    unfold goCb
    rw [if_neg (show ¬RULE_MAX ≤ i by omega)]
    rcases hp : processCbRecord rec with e | ru
    · have hm := processCb_err_is_mask hp
      subst hm
      exact fun hc => LoadErr.noConfusion (Except.error.inj hc)
    · rcases hr : goCb eofSet rest (i + 1) with e | rus
      · intro hc
        have he : e = .tooMany := Except.error.inj hc
        subst he
        exact ih (i + 1) hlen hr
      · exact fun hc => Except.noConfusion hc

theorem goCb_true_no_tooMany : ∀ (recs : List CbRec) (i : Nat),
    i + recs.length ≤ RULE_MAX → goCb true recs i ≠ .error .tooMany := by
  intro recs
  induction recs with
  | nil =>
    intro i _
    exact fun hc => Except.noConfusion hc
  | cons rec rest ih =>
    intro i h
    have hlen : (i + 1) + rest.length ≤ RULE_MAX := by
      simp at h
      omega
    unfold goCb
    rw [if_neg (show ¬RULE_MAX ≤ i by omega)]
    rcases hp : processCbRecord rec with e | ru
    · have hm := processCb_err_is_mask hp
      subst hm
      exact fun hc => LoadErr.noConfusion (Except.error.inj hc)
    · rcases hr : goCb true rest (i + 1) with e | rus
      · intro hc
        have he : e = .tooMany := Except.error.inj hc
        subst he
        exact ih (i + 1) hlen hr
      · exact fun hc => Except.noConfusion hc

theorem goTrace_err_of_over {eofSet : Bool} : ∀ (recs : List TraceRec) (i : Nat),
    i ≤ PKT_MAX → PKT_MAX < i + recs.length → ∃ e, goTrace eofSet recs i = .error e := by
  intro recs
  induction recs with
  | nil =>
    intro i h1 h2
    exfalso
    simp at h2
    omega
  | cons rec rest ih =>
    intro i h1 h2
    have hlen : PKT_MAX < (i + 1) + rest.length := by
      simp at h2
      omega
    unfold goTrace
    by_cases hi : PKT_MAX ≤ i
    · rw [if_pos hi]
      exact ⟨_, rfl⟩
    · rw [if_neg hi]
      obtain ⟨e, he⟩ := ih (i + 1) (by omega) hlen
      rw [he]
      exact ⟨e, rfl⟩

theorem goTrace_no_tooMany_lt {eofSet : Bool} : ∀ (recs : List TraceRec) (i : Nat),
    i + recs.length < PKT_MAX → goTrace eofSet recs i ≠ .error .tooMany := by
  intro recs
  induction recs with
  | nil =>
    intro i h
    unfold goTrace
    by_cases he : eofSet = true
    · rw [if_pos he]
      exact fun hc => Except.noConfusion hc
    · rw [if_neg he, if_neg (show ¬PKT_MAX ≤ i by simp at h; omega)]
      exact fun hc => LoadErr.noConfusion (Except.error.inj hc)
  | cons rec rest ih =>
    intro i h
    have hlen : (i + 1) + rest.length < PKT_MAX := by
      simp at h
      omega
    unfold goTrace
    rw [if_neg (show ¬PKT_MAX ≤ i by omega)]
    rcases hr : goTrace eofSet rest (i + 1) with e | ps
    · intro hc
      have he : e = .tooMany := Except.error.inj hc
      subst he
      exact ih (i + 1) hlen hr
    · exact fun hc => Except.noConfusion hc

theorem goTrace_true_no_tooMany : ∀ (recs : List TraceRec) (i : Nat),
    i + recs.length ≤ PKT_MAX → goTrace true recs i ≠ .error .tooMany := by
  intro recs
  induction recs with
  | nil =>
    intro i _
    exact fun hc => Except.noConfusion hc
  | cons rec rest ih =>
    intro i h
    have hlen : (i + 1) + rest.length ≤ PKT_MAX := by
      simp at h
      omega
    unfold goTrace
    rw [if_neg (show ¬PKT_MAX ≤ i by omega)]
    rcases hr : goTrace true rest (i + 1) with e | ps
    · intro hc
      have he : e = .tooMany := Except.error.inj hc
      subst he
      exact ih (i + 1) hlen hr
    · exact fun hc => Except.noConfusion hc

theorem goCb_replicate_tooMany {rec : CbRec} {ru : RRule}
    (hp : processCbRecord rec = .ok ru) :
    ∀ (k i : Nat), i + k = RULE_MAX → goCb false (List.replicate k rec) i = .error .tooMany := by
  intro k
  induction k with
  | zero =>
    intro i hi
    show goCb false [] i = .error .tooMany
    unfold goCb
    rw [if_neg (by simp), if_pos (show RULE_MAX ≤ i by omega)]
  | succ k ih =>
    intro i hi
    show goCb false (rec :: List.replicate k rec) i = .error .tooMany
    unfold goCb
    rw [if_neg (show ¬RULE_MAX ≤ i by have := RULE_MAX; omega), hp, ih (i + 1) (by omega)]

/-- C6 (amended): exceeding the caps is fatal, and a file with fewer
records than the cap is never rejected for capacity; a file with exactly
the cap's number of records avoids the capacity diagnostic only when its
final successful parse sets the end-of-file indicator — otherwise the
loop's pre-scan capacity check fires (see the counterexample). -/
theorem claim_c6 :
    (∀ (recs : List CbRec) (eofSet : Bool), RULE_MAX < recs.length →
      ∃ e, load_cb_rules recs eofSet = .error e)
    ∧ (∀ (recs : List CbRec) (eofSet : Bool), recs.length < RULE_MAX →
      load_cb_rules recs eofSet ≠ .error .tooMany)
    ∧ (∀ recs : List CbRec, recs.length ≤ RULE_MAX →
      load_cb_rules recs true ≠ .error .tooMany)
    ∧ (∀ (recs : List TraceRec) (eofSet : Bool), PKT_MAX < recs.length →
      ∃ e, load_trace recs eofSet = .error e)
    ∧ (∀ (recs : List TraceRec) (eofSet : Bool), recs.length < PKT_MAX →
      load_trace recs eofSet ≠ .error .tooMany)
    ∧ (∀ recs : List TraceRec, recs.length ≤ PKT_MAX →
      load_trace recs true ≠ .error .tooMany) :=
  ⟨fun recs _ h => goCb_err_of_over recs 0 (Nat.zero_le _) (by omega),
   fun recs _ h => goCb_no_tooMany_lt recs 0 (by omega),
   fun recs h => goCb_true_no_tooMany recs 0 (by omega),
   fun recs _ h => goTrace_err_of_over recs 0 (Nat.zero_le _) (by omega),
   fun recs _ h => goTrace_no_tooMany_lt recs 0 (by omega),
   fun recs h => goTrace_true_no_tooMany recs 0 (by omega)⟩

theorem claim_c6_witness :
    load_cb_rules [cbRecOk] true ≠ .error .tooMany
    ∧ load_trace [traceRecW] true ≠ .error .tooMany :=
  ⟨claim_c6.2.1 [cbRecOk] true (by decide),
   claim_c6.2.2.2.2.1 [traceRecW] true (by decide)⟩

theorem claim_c6_cex :
    (List.replicate RULE_MAX cbRecOk).length ≤ RULE_MAX
    ∧ load_cb_rules (List.replicate RULE_MAX cbRecOk) false = .error .tooMany :=
  ⟨by simp,
   goCb_replicate_tooMany (show processCbRecord cbRecOk = .ok cbRuleOk by decide)
     RULE_MAX 0 (by omega)⟩

/-- C8: `make_timediff` computes the elapsed microseconds as the
difference of the two microsecond totals, and the reported throughput is
`num_packets * 1000000 / elapsed` in exact integer arithmetic, provided
the stop time is not before the start time and the totals fit in 64
bits. -/
theorem claim_c8 (s e : Timeval) (num : Nat)
    (hle : 1000000 * s.sec + s.usec ≤ 1000000 * e.sec + e.usec)
    (hlt : 1000000 * e.sec + e.usec < 2 ^ 64) (hnum : num < 2 ^ 32) :
    make_timediff s e = (1000000 * e.sec + e.usec) - (1000000 * s.sec + s.usec)
    ∧ searching_pps num (make_timediff s e)
      = num * 1000000 / ((1000000 * e.sec + e.usec) - (1000000 * s.sec + s.usec)) := by
  have h64 : (2:Nat) ^ 64 = 18446744073709551616 := by norm_num
  have h32 : (2:Nat) ^ 32 = 4294967296 := by norm_num
  have h1 : make_timediff s e = (1000000 * e.sec + e.usec) - (1000000 * s.sec + s.usec) := by
    unfold make_timediff
    rw [h64] at hlt ⊢
    omega
  refine ⟨h1, ?_⟩
  unfold searching_pps
  rw [h1]
  congr 1
  rw [h64]
  rw [h32] at hnum
  omega

theorem claim_c8_witness :
    make_timediff ⟨0, 0⟩ ⟨1, 500⟩ = (1000000 * 1 + 500) - (1000000 * 0 + 0)
    ∧ searching_pps 3 (make_timediff ⟨0, 0⟩ ⟨1, 500⟩)
      = 3 * 1000000 / ((1000000 * 1 + 500) - (1000000 * 0 + 0)) :=
  claim_c8 ⟨0, 0⟩ ⟨1, 500⟩ 3 (by norm_num) (by norm_num) (by norm_num)

theorem goCb_false_badFormat : ∀ (recs : List CbRec) (i : Nat),
    (∀ rec ∈ recs, rec.pmask = 0xff ∨ rec.pmask = 0) →
    i + recs.length < RULE_MAX → goCb false recs i = .error .badFormat := by
  intro recs
  induction recs with
  | nil =>
    intro i _ h
    unfold goCb
    rw [if_neg (by simp), if_neg (show ¬RULE_MAX ≤ i by simp at h; omega)]
  | cons rec rest ih =>
    intro i hmask h
    have hlen : (i + 1) + rest.length < RULE_MAX := by
      simp at h
      omega
    obtain ⟨ru, hp⟩ := processCb_ok_of_mask (hmask rec (List.mem_cons_self rec rest))
    unfold goCb
    rw [if_neg (show ¬RULE_MAX ≤ i by omega), hp,
      ih (i + 1) (fun x hx => hmask x (List.mem_cons_of_mem rec hx)) hlen]

theorem goPrfx_false_badFormat : ∀ (recs : List PrfxRec) (i : Nat),
    (∀ rec ∈ recs, rec.pmask = 0xff ∨ rec.pmask = 0) →
    i + recs.length < RULE_MAX → goPrfx false recs i = .error .badFormat := by
  intro recs
  induction recs with
  | nil =>
    intro i _ h
    unfold goPrfx
    rw [if_neg (by simp), if_neg (show ¬RULE_MAX ≤ i by simp at h; omega)]
  | cons rec rest ih =>
    intro i hmask h
    have hlen : (i + 1) + rest.length < RULE_MAX := by
      simp at h
      omega
    obtain ⟨ru, hp⟩ := processPrfx_ok_of_mask (hmask rec (List.mem_cons_self rec rest))
    unfold goPrfx
    rw [if_neg (show ¬RULE_MAX ≤ i by omega), hp,
      ih (i + 1) (fun x hx => hmask x (List.mem_cons_of_mem rec hx)) hlen]

theorem goTrace_false_badFormat : ∀ (recs : List TraceRec) (i : Nat),
    i + recs.length < PKT_MAX → goTrace false recs i = .error .badFormat := by
  intro recs
  induction recs with
  | nil =>
    intro i h
    unfold goTrace
    rw [if_neg (by simp), if_neg (show ¬PKT_MAX ≤ i by simp at h; omega)]
  | cons rec rest ih =>
    intro i h
    have hlen : (i + 1) + rest.length < PKT_MAX := by
      simp at h
      omega
    unfold goTrace
    rw [if_neg (show ¬PKT_MAX ≤ i by omega), ih (i + 1) hlen]

/-- C10: a file all of whose lines are well-formed records still aborts
with the illegal-format diagnostic when the final successful scan leaves
the end-of-file indicator unset (for instance because of a trailing
newline the format string does not consume): the loop re-enters and the
extra failing scan is treated as a format error, in all three loaders. -/
theorem claim_c10 :
    (∀ recs : List CbRec, (∀ rec ∈ recs, rec.pmask = 0xff ∨ rec.pmask = 0) →
      recs.length < RULE_MAX → load_cb_rules recs false = .error .badFormat)
    ∧ (∀ recs : List PrfxRec, (∀ rec ∈ recs, rec.pmask = 0xff ∨ rec.pmask = 0) →
      recs.length < RULE_MAX → load_prfx_rules recs false = .error .badFormat)
    ∧ (∀ recs : List TraceRec, recs.length < PKT_MAX →
      load_trace recs false = .error .badFormat) :=
  ⟨fun recs hmask h => goCb_false_badFormat recs 0 hmask (by omega),
   fun recs hmask h => goPrfx_false_badFormat recs 0 hmask (by omega),
   fun recs h => goTrace_false_badFormat recs 0 (by omega)⟩

theorem claim_c10_witness :
    load_cb_rules [cbRecOk] false = .error .badFormat
    ∧ load_trace [traceRecW] false = .error .badFormat :=
  ⟨claim_c10.1 [cbRecOk] (by decide) (by decide),
   claim_c10.2.2 [traceRecW] (by decide)⟩

theorem claim_c9_witness :
    prfxRuleW.len 0 ≤ dimWidth 0 ∧ prfxRuleW.len 1 ≤ dimWidth 1
    ∧ prfxRuleW.len 2 ≤ dimWidth 2 ∧ prfxRuleW.len 3 ≤ dimWidth 3
    ∧ prfxRuleW.len 4 ≤ dimWidth 4 ∧ (prfxRuleW.len 4 = 8 ∨ prfxRuleW.len 4 = 0) :=
  have h := claim_c9 [prfxRecW] true [prfxRuleW] (by decide) (by decide) prfxRuleW
    (List.mem_singleton.mpr rfl)
  ⟨h.1 0, h.1 1, h.1 2, h.1 3, h.1 4, h.2⟩

end PCVisor
